import Mathlib

/-!
A shallow embedding of `assess-category.py` (the wpmed repository): the
quality scale, the ORES scoring client (`Predictor.get_predictions`), the
ranking pipeline (`Predictor.predict`) and the report formatter
(`Predictor.build_table`), together with theorems about them.

Modelling conventions:
* Python floats are modelled as exact rationals (`ℚ`).
* Python dicts are modelled as insertion-ordered association lists; `dget`
  models read access and `dset` models `m[k] = v` (overwriting keeps the
  original position, as CPython dicts do).
* External effects (the MySQL database and the HTTP responses from ORES)
  are passed in as explicit oracles (`DB`, and a response function per
  batch and attempt).
* Uncaught Python exceptions are modelled as explicit error values of the
  result type; `time.sleep(0.5)` calls are counted rather than performed.
-/

namespace AssessCategory

/-- The WP 1.0 assessment scale used by ORES, in descending order
(`self.wp10` at line 70 of the source). -/
def wp10 : List String := ["FA", "GA", "B", "C", "Start", "Stub"]

/-- Association-list lookup modelling Python `dict` read access `m[k]`
(`none` models a `KeyError`). -/
def dget {α : Type} (k : String) : List (String × α) → Option α
  | [] => none
  | (a, b) :: es => if k = a then some b else dget k es

/-- Python dict assignment `m[k] = v`: an existing key keeps its original
position and gets the new value, a new key is appended at the end. -/
def dset {α : Type} (m : List (String × α)) (k : String) (v : α) : List (String × α) :=
  if (dget k m).isSome then m.map (fun p => if p.1 = k then (k, v) else p)
  else m ++ [(k, v)]

/-- `wp10_map = { rating: idx for idx, rating in enumerate(self.wp10) }`
(line 266 of the source).  Lookup in it is exact-case dict lookup. -/
def wp10_map : List (String × Nat) := wp10.enum.map fun p => (p.2, p.1)

/-- The `Prediction` class (lines 37-55): revision id, majority-class
rating, per-class probabilities, and `p_above_target` initialised to 0.0. -/
structure Prediction where
  rev_id : String
  rating : String
  probs : List (String × ℚ)
  p_above_target : ℚ
deriving DecidableEq

/-- One revision's score object in an ORES response; `none` fields model
the sub-keys `prediction` / `probability` being absent (a `KeyError`). -/
structure ScoreData where
  prediction : Option String
  probability : Option (List (String × ℚ))
deriving DecidableEq

/-- The observable outcome of one HTTP attempt against ORES:
a non-200 status, a 200 whose body is not JSON (`ValueError`), a 200 whose
JSON lacks the `scores -> wiki -> wp10 -> scores` path (`KeyError`), or a
200 carrying a per-revision score map. -/
inductive OresResponse where
  | httpError
  | jsonError
  | keyError
  | ok (scores : List (String × ScoreData))
deriving DecidableEq

/-- Whether every score object in a response carries both expected
sub-keys, i.e. whether the storing loop completes without a `KeyError`. -/
def scoresOk : List (String × ScoreData) → Bool
  | [] => true
  | (_, sd) :: rest => sd.prediction.isSome && sd.probability.isSome && scoresOk rest

/-- The storing loop of `get_predictions` (lines 155-158): each score
object becomes a `Prediction` with `p_above_target = 0`; a missing sub-key
raises mid-loop, keeping the entries already stored (`false` flag). -/
def storeScores : List (String × ScoreData) → List (String × Prediction) →
    List (String × Prediction) × Bool
  | [], acc => (acc, true)
  | (revid, sd) :: rest, acc =>
    match sd.prediction, sd.probability with
    | some pr, some pb => storeScores rest (dset acc revid ⟨revid, pr, pb, 0⟩)
    | some _, none => (acc, false)
    | none, _ => (acc, false)

/-- An attempt that reaches the `except`/`sleep` path of lines 161-169:
a 200 response whose body fails to parse or whose keys are missing.  A
non-200 status skips that path entirely. -/
def parseFails : OresResponse → Bool
  | .httpError => false
  | .jsonError => true
  | .keyError => true
  | .ok s => !scoresOk s

/-- An attempt that fails before any score object is stored. -/
def topLevelFail : OresResponse → Bool
  | .httpError => true
  | .jsonError => true
  | .keyError => true
  | .ok _ => false

/-- `self.max_url_attempts` (line 77). -/
def max_url_attempts : Nat := 3

/-- `self.iter_size` (line 74). -/
def iter_size : Nat := 50

/-- The per-batch attempt loop of `get_predictions` (lines 145-169).
`resp` gives the outcome of each numbered attempt; the result is the
updated prediction store, the number of `time.sleep(0.5)` calls made, and
the number of attempts consumed.  Fuel counts the remaining iterations of
`while num_attempts < self.max_url_attempts`. -/
def tryBatchAux (resp : Nat → OresResponse) :
    Nat → Nat → List (String × Prediction) → Nat →
      List (String × Prediction) × Nat × Nat
  | 0, attempts, acc, sleeps => (acc, sleeps, attempts)
  | fuel + 1, attempts, acc, sleeps =>
    match resp attempts with
    | .httpError => tryBatchAux resp fuel (attempts + 1) acc sleeps
    | .jsonError => tryBatchAux resp fuel (attempts + 1) acc (sleeps + 1)
    | .keyError => tryBatchAux resp fuel (attempts + 1) acc (sleeps + 1)
    | .ok scores =>
      match storeScores scores acc with
      | (acc2, true) => (acc2, sleeps, attempts + 1)
      | (acc2, false) => tryBatchAux resp fuel (attempts + 1) acc2 (sleeps + 1)

/-- The attempt loop for one batch, started with `num_attempts = 0`. -/
def tryBatch (resp : Nat → OresResponse) (acc : List (String × Prediction)) :
    List (String × Prediction) × Nat × Nat :=
  tryBatchAux resp max_url_attempts 0 acc 0

/-- The outer batching loop of `get_predictions` (lines 134-172): consume
`iter_size` revision ids per batch, handing each batch its own attempt
oracle.  Fuel bounds the number of batches; it is instantiated with the
length of the input list, which suffices since each round drops at least
one element. -/
def get_predictionsAux (resp : Nat → Nat → OresResponse) :
    Nat → List String → Nat → List (String × Prediction) → Nat →
      List (String × Prediction) × Nat
  | 0, _, _, acc, sleeps => (acc, sleeps)
  | _ + 1, [], _, acc, sleeps => (acc, sleeps)
  | fuel + 1, l@(_ :: _), b, acc, sleeps =>
    match tryBatch (resp b) acc with
    | (acc2, s2, _) => get_predictionsAux resp fuel (l.drop iter_size) (b + 1) acc2 (sleeps + s2)

/-- `Predictor.get_predictions` (lines 118-174): a mapping from revision
id to `Prediction`, plus the total number of sleeps performed. -/
def get_predictions (resp : Nat → Nat → OresResponse) (rev_ids : List String) :
    List (String × Prediction) × Nat :=
  get_predictionsAux resp rev_ids.length rev_ids 0 [] 0

/-- The uncaught Python exceptions `predict` can raise: a `KeyError` from
`wp10_map[target]` (line 267), from `wp10_map[rev_pred.rating]`
(line 277), or from `rev_pred.probs[self.wp10[i]]` (line 280). -/
inductive PyError where
  | targetKeyError
  | ratingKeyError (rating : String)
  | probsKeyError
deriving DecidableEq

/-- The accumulation loop of lines 279-280: the sum of
`probs[wp10[i]]` for `i in range(0, target_idx)`; `none` models the
`KeyError` raised when one of those classes is absent from `probs`. -/
def sumAbove (probs : List (String × ℚ)) (target_idx : Nat) : Option ℚ :=
  if (wp10.take target_idx).all (fun c => (dget c probs).isSome) then
    some (((wp10.take target_idx).map fun c => (dget c probs).getD 0).sum)
  else none

/-- The candidate loop of `predict` (lines 269-280), iterating over the
`(page title, rev id)` map.  `cands` accumulates `candidate_map` as a map
from title to the revision-id key of the stored `Prediction` object
(Python stores a reference to the mutable object; keeping the key and
reading through the final store reproduces that aliasing).  The store is
updated in place when `p_above_target` is incremented. -/
def rankLoop (target_idx : Nat) (distance : Int) :
    List (String × Int) → List (String × String) → List (String × Prediction) →
      Except PyError (List (String × String) × List (String × Prediction))
  | [], cands, store => .ok (cands, store)
  | (title, rev) :: rest, cands, store =>
    match dget (toString rev) store with
    | none => rankLoop target_idx distance rest cands store
    | some pred =>
      match dget pred.rating wp10_map with
      | none => .error (.ratingKeyError pred.rating)
      | some ridx =>
        if (target_idx : Int) - (ridx : Int) ≥ distance then
          match sumAbove pred.probs target_idx with
          | none => .error .probsKeyError
          | some s =>
            rankLoop target_idx distance rest (dset cands title (toString rev))
              (dset store (toString rev) { pred with p_above_target := pred.p_above_target + s })
        else rankLoop target_idx distance rest cands store

/-- The external relational store: whether `db_connect` succeeds, the
titles returned by the category-membership query, and the `page_latest`
rows returned by the latest-revision query for a title. -/
structure DB where
  connects : Bool
  members : String → List String
  latest : String → List Int

/-- Python `s.replace(a, b)` for single-character arguments, as used with
`' '`/`'_'` on category names and titles. -/
def replaceChar (a b : Char) (s : String) : String :=
  ⟨s.data.map fun c => if c = a then b else c⟩

/-- Building `art_rev_map` from the membership rows (lines 229-237):
each title becomes a key with value -1; duplicate titles collapse. -/
def buildArtMap (titles : List String) : List (String × Int) :=
  titles.foldl (fun m t => dset m t (-1)) []

/-- The value left in `art_rev_map[t]` by the `fetchall` loop of lines
243-247: the last returned row, or the default when no row is returned. -/
def lastOr (l : List Int) (d : Int) : Int := l.foldl (fun _ r => r) d

/-- `art_rev_map` after the latest-revision queries (lines 229-247). -/
def artRevMap (db : DB) (category_name : String) : List (String × Int) :=
  (buildArtMap (db.members (replaceChar ' ' '_' category_name))).map
    fun p => (p.1, lastOr (db.latest p.1) (-1))

/-- `art_rev_map` after deleting unresolved titles (lines 249-257):
entries with `int(rev_id) <= 0` are removed. -/
def resolvedArtMap (db : DB) (category_name : String) : List (String × Int) :=
  (artRevMap db category_name).filter fun p => decide (0 < p.2)

/-- `rev_pred_map` as produced at line 261: predictions fetched for the
resolved revision ids. -/
def initialStore (db : DB) (resp : Nat → Nat → OresResponse) (category_name : String) :
    List (String × Prediction) :=
  (get_predictions resp ((resolvedArtMap db category_name).map fun p => toString p.2)).1

/-- Reading `candidate_map`'s values through the final prediction store,
reproducing Python's aliasing of the mutated `Prediction` objects. -/
def materialize (cands : List (String × String)) (store : List (String × Prediction)) :
    List (String × Prediction) :=
  cands.filterMap fun p => (dget p.2 store).map fun pr => (p.1, pr)

/-- The observable outcome of `Predictor.predict`: the early `return()`
when the database is unreachable (line 223), an uncaught exception, or the
returned `candidate_map` (paired with the final prediction store). -/
inductive PredictResult where
  | dbFailure
  | pyError (e : PyError)
  | ok (candidates : List (String × Prediction)) (store : List (String × Prediction))
deriving DecidableEq

/-- `Predictor.predict` (lines 176-282). -/
def predict (db : DB) (resp : Nat → Nat → OresResponse) (category_name target : String)
    (distance : Int) : PredictResult :=
  if db.connects then
    let art := resolvedArtMap db category_name
    let store0 := initialStore db resp category_name
    match dget target wp10_map with
    | none => .pyError .targetKeyError
    | some target_idx =>
      match rankLoop target_idx distance art [] store0 with
      | .error e => .pyError e
      | .ok (cands, store) => .ok (materialize cands store) store
  else .dbFailure

/-- The list of candidate titles, when `predict` returns normally. -/
def candidateTitles : PredictResult → Option (List String)
  | .ok cands _ => some (cands.map Prod.fst)
  | _ => none

/-- The sort key used at line 307: `pred[1].p_above_target`. -/
def keyOf (c : String × Prediction) : ℚ := c.2.p_above_target

/-- Stable descending insertion: `x` goes after every earlier element with
a strictly larger key and before the first element whose key is ≤ its own.
This is the unique stable descending order, hence the order produced by
`sorted(..., key=..., reverse=True)` at lines 306-308. -/
def insertDesc (x : String × Prediction) :
    List (String × Prediction) → List (String × Prediction)
  | [] => [x]
  | y :: ys => if keyOf x < keyOf y then y :: insertDesc x ys else x :: y :: ys

/-- Stable sort, descending by `p_above_target`. -/
def sortDesc : List (String × Prediction) → List (String × Prediction)
  | [] => []
  | x :: xs => insertDesc x (sortDesc xs)

/-- `Rat.floor`-based model of Python's `'{:.1f}'.format(x)` for the
nonnegative exact rationals arising here: the value rounded to one decimal
place, rendered as integer part, dot, single digit. -/
def formatFixed1 (q : ℚ) : String :=
  let n : Int := (10 * q + 1 / 2).floor
  toString (n / 10) ++ "." ++ toString (n % 10)

/-- `table_start` (lines 296-299); `{{` renders as a literal brace. -/
def tableStart (target : String) : String :=
  "\x7b|\n!  Title\n!  Predicted class\n!  P(> " ++ target ++ ")"

/-- `table_end` (lines 301-302). -/
def tableEnd : String := "\n|\x7d"

/-- One iteration of the row loop (lines 310-315). -/
def tableRow (content : String) (page_title : String) (pred : Prediction) : String :=
  content ++ "\n|-\n| [[" ++ replaceChar '_' ' ' page_title ++ "]] || " ++
    pred.rating ++ " || " ++ formatFixed1 (100 * pred.p_above_target)

/-- `Predictor.build_table` (lines 284-317). -/
def build_table (candidates : List (String × Prediction)) (target : String) : String :=
  tableStart target ++
    ((sortDesc candidates).foldl (fun c p => tableRow c p.1 p.2) "") ++ tableEnd

/-- The `main` pipeline (lines 319-352): the printed table, or `none` when
the run aborts before printing (a non-dict `predict` result makes
`build_table` raise `AttributeError` at line 306 before any output). -/
def run_main (db : DB) (resp : Nat → Nat → OresResponse) (category target : String)
    (distance : Int) : Option String :=
  match predict db resp category target distance with
  | .ok cands _ => some (build_table cands target)
  | _ => none

/-- Distinctness of the keys of an association list (the defining
invariant of a Python dict). -/
def keysND {α : Type} (m : List (String × α)) : Prop := (m.map Prod.fst).Nodup

/-- The immutable part of a stored prediction: its rating and
probabilities.  The ranking loop only ever changes `p_above_target`, so
this view of the store is invariant under it. -/
def viewOf (store : List (String × Prediction)) (r : String) :
    Option (String × List (String × ℚ)) :=
  (dget r store).map fun p => (p.rating, p.probs)

/-- The candidate filter of line 277, expressed on the immutable view of a
store entry: the stored rating has an index and
`target_idx - idx >= distance`. -/
def passesView (target_idx : Nat) (distance : Int)
    (v : Option (String × List (String × ℚ))) : Prop :=
  ∃ rt ridx, v.map Prod.fst = some rt ∧ dget rt wp10_map = some ridx ∧
    (target_idx : Int) - (ridx : Int) ≥ distance

/-! Concrete data for the end-to-end scenario of the specification:
category members `A`, `B`, `C`; `A → 101` predicted Stub, `B → 102`
predicted FA, `C` unresolved.  The probabilities left unspecified by the
scenario are filled with concrete values. -/

/-- Probabilities for revision 101 of the scenario. -/
def probs101 : List (String × ℚ) :=
  [("FA", 1/100), ("GA", 1/50), ("B", 1/20), ("C", 3/25), ("Start", 3/10), ("Stub", 1/2)]

/-- Probabilities for revision 102 of the scenario (only `FA: 0.9` is
fixed by the specification; the rest are a concrete completion). -/
def probs102 : List (String × ℚ) :=
  [("FA", 9/10), ("GA", 1/20), ("B", 3/100), ("C", 1/100), ("Start", 1/200), ("Stub", 1/200)]

/-- The scenario database. -/
def scnDB : DB where
  connects := true
  members := fun _ => ["A", "B", "C"]
  latest := fun t => if t = "A" then [101] else if t = "B" then [102] else []

/-- The scenario scoring service: every request answers with both scores. -/
def scnResp : Nat → Nat → OresResponse := fun _ _ =>
  .ok [("101", ⟨some "Stub", some probs101⟩), ("102", ⟨some "FA", some probs102⟩)]

/-- The prediction stored for revision 101 (never mutated: A fails the
filter). -/
def scnPredA : Prediction := ⟨"101", "Stub", probs101, 0⟩

/-- The prediction stored for revision 102, before ranking. -/
def scnPredB0 : Prediction := ⟨"102", "FA", probs102, 0⟩

/-- The prediction for revision 102 after ranking: `p_above_target` is the
sum of the FA, GA and B probabilities. -/
def scnPredB : Prediction := ⟨"102", "FA", probs102, 49/50⟩

/-- A database whose `db_connect` fails. -/
def badDB : DB where
  connects := false
  members := fun _ => []
  latest := fun _ => []

/-- A reachable database with an empty category. -/
def emptyDB : DB where
  connects := true
  members := fun _ => []
  latest := fun _ => []

/-! ### Association-list dictionary lemmas -/

theorem dget_append {α : Type} (m1 m2 : List (String × α)) (k : String) :
    dget k (m1 ++ m2) = ((dget k m1).rec (dget k m2) fun b => some b) := by
  induction m1 with
  | nil => simp [dget]
  | cons p es ih =>
    obtain ⟨a, b⟩ := p
    by_cases h : k = a <;> simp [dget, h, ih]

theorem dget_replace {α : Type} (m : List (String × α)) (k k' : String) (v : α) :
    dget k' (m.map fun p => if p.1 = k then (k, v) else p) =
      if k' = k then (dget k m).map fun _ => v else dget k' m := by
  induction m with
  | nil => simp [dget]
  | cons p es ih =>
    obtain ⟨a, b⟩ := p
    simp only [List.map_cons]
    have hhead : (if (a, b).1 = k then (k, v) else (a, b)) = if a = k then (k, v) else (a, b) := rfl
    by_cases hak : a = k
    · rw [hhead, if_pos hak]
      by_cases hk : k' = k
      · rw [if_pos hk, hk]
        simp [dget, hak]
      · rw [if_neg hk]
        simp [dget, hk, hak, ih]
    · rw [hhead, if_neg hak]
      have hki : ¬k = a := fun h => hak h.symm
      by_cases hka : k' = a
      · have hk : ¬k' = k := fun h => hak (hka.symm.trans h)
        simp [dget, hka, hk, hak]
      · by_cases hk : k' = k
        · subst hk
          simp [dget, hka, hki, ih]
        · simp [dget, hka, hk, ih]

theorem dget_dset {α : Type} (m : List (String × α)) (k k' : String) (v : α) :
    dget k' (dset m k v) = if k' = k then some v else dget k' m := by
  unfold dset
  by_cases hs : (dget k m).isSome
  · rw [if_pos hs, dget_replace]
    by_cases hk : k' = k
    · obtain ⟨b, hb⟩ := Option.isSome_iff_exists.mp hs
      simp [hk, hb]
    · simp [hk]
  · rw [if_neg hs, dget_append]
    rw [Option.not_isSome_iff_eq_none] at hs
    by_cases hk : k' = k
    · subst hk
      simp [hs, dget]
    · cases h' : dget k' m <;> simp [dget, hk, h']

theorem mem_dset {α : Type} {m : List (String × α)} {k : String} {v : α}
    {e : String × α} (h : e ∈ dset m k v) : e ∈ m ∨ e = (k, v) := by
  unfold dset at h
  split at h
  · rcases List.mem_map.mp h with ⟨x, hx, hfx⟩
    by_cases hk : x.1 = k
    · simp only [hk, if_pos] at hfx
      exact Or.inr hfx.symm
    · simp only [hk, if_neg, not_false_iff] at hfx
      exact Or.inl (hfx ▸ hx)
  · rcases List.mem_append.mp h with h' | h'
    · exact Or.inl h'
    · exact Or.inr (List.mem_singleton.mp h')

theorem dget_isSome_iff {α : Type} (m : List (String × α)) (k : String) :
    (dget k m).isSome ↔ ∃ b, (k, b) ∈ m := by
  induction m with
  | nil => simp [dget]
  | cons p es ih =>
    obtain ⟨a, b⟩ := p
    by_cases h : k = a
    · subst h
      simp [dget]
    · simp only [dget, if_neg h, ih, List.mem_cons]
      constructor
      · rintro ⟨c, hc⟩
        exact ⟨c, Or.inr hc⟩
      · rintro ⟨c, hc | hc⟩
        · exact absurd (congrArg Prod.fst hc) h
        · exact ⟨c, hc⟩

theorem mem_of_dget_eq_some {α : Type} {m : List (String × α)} {k : String} {b : α}
    (h : dget k m = some b) : (k, b) ∈ m := by
  induction m with
  | nil => simp [dget] at h
  | cons p es ih =>
    obtain ⟨a, c⟩ := p
    by_cases hk : k = a
    · subst hk
      have hcb : c = b := by simpa [dget] using h
      exact hcb ▸ List.mem_cons_self _ _
    · simp only [dget, if_neg hk] at h
      exact List.mem_cons_of_mem _ (ih h)

theorem keysND_eq {α : Type} {m : List (String × α)} (hnd : keysND m)
    {a : String} {b c : α} (hb : (a, b) ∈ m) (hc : (a, c) ∈ m) : b = c := by
  induction m with
  | nil => simp at hb
  | cons p es ih =>
    rcases List.mem_cons.mp hb with hb' | hb' <;> rcases List.mem_cons.mp hc with hc' | hc'
    · rw [← hb'] at hc'
      exact congrArg Prod.snd hc'.symm
    · exfalso
      have : a ∈ es.map Prod.fst := List.mem_map.mpr ⟨(a, c), hc', rfl⟩
      rw [← hb'] at hnd
      exact (List.nodup_cons.mp hnd).1 this
    · exfalso
      have : a ∈ es.map Prod.fst := List.mem_map.mpr ⟨(a, b), hb', rfl⟩
      rw [← hc'] at hnd
      exact (List.nodup_cons.mp hnd).1 this
    · exact ih (List.nodup_cons.mp hnd).2 hb' hc'

theorem dget_eq_some_of_mem {α : Type} {m : List (String × α)} (hnd : keysND m)
    {a : String} {b : α} (hb : (a, b) ∈ m) : dget a m = some b := by
  have hs : (dget a m).isSome := (dget_isSome_iff m a).mpr ⟨b, hb⟩
  obtain ⟨c, hc⟩ := Option.isSome_iff_exists.mp hs
  rw [hc, keysND_eq hnd (mem_of_dget_eq_some hc) hb]

theorem keysND_dset {α : Type} {m : List (String × α)} (hnd : keysND m)
    (k : String) (v : α) : keysND (dset m k v) := by
  unfold dset
  by_cases hs : (dget k m).isSome
  · rw [if_pos hs]
    have heq : ((m.map fun p => if p.1 = k then (k, v) else p).map Prod.fst) = m.map Prod.fst := by
      rw [List.map_map]
      refine List.map_congr_left fun p _ => ?_
      by_cases h : p.1 = k <;> simp [h]
    unfold keysND
    rw [heq]
    exact hnd
  · rw [if_neg hs]
    unfold keysND
    rw [List.map_append, List.nodup_append]
    refine ⟨hnd, List.nodup_singleton _, ?_⟩
    intro a ha hb
    simp only [List.map_cons, List.map_nil, List.mem_singleton] at hb
    subst hb
    rcases List.mem_map.mp ha with ⟨p, hp, hpk⟩
    have hpm : (a, p.2) ∈ m := by
      rw [← hpk, Prod.mk.eta]
      exact hp
    exact hs ((dget_isSome_iff m a).mpr ⟨p.2, hpm⟩)

/-! ### Sorting lemmas (for the report formatter) -/

theorem mem_insertDesc {x z : String × Prediction} {l : List (String × Prediction)} :
    z ∈ insertDesc x l ↔ z = x ∨ z ∈ l := by
  induction l with
  | nil => simp [insertDesc]
  | cons y ys ih =>
    by_cases h : keyOf x < keyOf y
    · simp only [insertDesc, if_pos h, List.mem_cons, ih]
      tauto
    · simp only [insertDesc, if_neg h, List.mem_cons]

theorem pairwise_insertDesc {x : String × Prediction} {l : List (String × Prediction)}
    (h : l.Pairwise fun a b => keyOf b ≤ keyOf a) :
    (insertDesc x l).Pairwise fun a b => keyOf b ≤ keyOf a := by
  induction l with
  | nil => simp [insertDesc]
  | cons y ys ih =>
    rcases List.pairwise_cons.mp h with ⟨hy, hys⟩
    by_cases hlt : keyOf x < keyOf y
    · rw [insertDesc, if_pos hlt]
      refine List.pairwise_cons.mpr ⟨?_, ih hys⟩
      intro z hz
      rcases mem_insertDesc.mp hz with rfl | hz'
      · exact le_of_lt hlt
      · exact hy z hz'
    · rw [insertDesc, if_neg hlt]
      refine List.pairwise_cons.mpr ⟨?_, h⟩
      intro z hz
      rcases List.mem_cons.mp hz with rfl | hz'
      · exact le_of_not_lt hlt
      · exact le_trans (hy z hz') (le_of_not_lt hlt)

theorem sortDesc_pairwise (l : List (String × Prediction)) :
    (sortDesc l).Pairwise fun a b => keyOf b ≤ keyOf a := by
  induction l with
  | nil => simp [sortDesc]
  | cons x xs ih => exact pairwise_insertDesc ih

theorem filter_insertDesc (x : String × Prediction) (l : List (String × Prediction)) (q : ℚ) :
    (insertDesc x l).filter (fun c => decide (keyOf c = q)) =
      (x :: l).filter (fun c => decide (keyOf c = q)) := by
  induction l with
  | nil => rfl
  | cons y ys ih =>
    by_cases hlt : keyOf x < keyOf y
    · rw [insertDesc, if_pos hlt]
      by_cases hx : keyOf x = q <;> by_cases hy : keyOf y = q
      · exact absurd (hy.trans hx.symm) (ne_of_gt hlt)
      · simp [List.filter_cons, hx, hy, ih]
      · simp [List.filter_cons, hx, hy, ih]
      · simp [List.filter_cons, hx, hy, ih]
    · rw [insertDesc, if_neg hlt]

theorem sortDesc_filter (l : List (String × Prediction)) (q : ℚ) :
    (sortDesc l).filter (fun c => decide (keyOf c = q)) =
      l.filter (fun c => decide (keyOf c = q)) := by
  induction l with
  | nil => rfl
  | cons x xs ih =>
    rw [sortDesc, filter_insertDesc, List.filter_cons, List.filter_cons, ih]

/-! ### Retry-loop lemmas (for the scoring client) -/

theorem storeScores_flag (scores : List (String × ScoreData)) (acc : List (String × Prediction)) :
    (storeScores scores acc).2 = scoresOk scores := by
  induction scores generalizing acc with
  | nil => rfl
  | cons p rest ih =>
    obtain ⟨revid, sd⟩ := p
    obtain ⟨pr, pb⟩ := sd
    cases pr <;> cases pb <;> simp [storeScores, scoresOk, ih]

theorem tryBatchAux_spec (resp : Nat → OresResponse) :
    ∀ (fuel a s : Nat) (acc : List (String × Prediction)),
      a ≤ (tryBatchAux resp fuel a acc s).2.2 ∧
      (tryBatchAux resp fuel a acc s).2.2 ≤ a + fuel ∧
      (tryBatchAux resp fuel a acc s).2.1 =
        s + ((List.range' a ((tryBatchAux resp fuel a acc s).2.2 - a)).countP
              fun k => parseFails (resp k)) ∧
      ((∀ k, a ≤ k → k < a + fuel → topLevelFail (resp k) = true) →
        (tryBatchAux resp fuel a acc s).1 = acc ∧
        (tryBatchAux resp fuel a acc s).2.2 = a + fuel) := by
  intro fuel
  induction fuel with
  | zero =>
    intro a s acc
    simp [tryBatchAux]
  | succ n ih =>
    intro a s acc
    cases hr : resp a with
    | httpError =>
      have h := ih (a + 1) s acc
      simp only [tryBatchAux, hr]
      obtain ⟨h1, h2, h3, h4⟩ := h
      refine ⟨by omega, by omega, ?_, ?_⟩
      · have hn : (tryBatchAux resp n (a + 1) acc s).2.2 - a =
            ((tryBatchAux resp n (a + 1) acc s).2.2 - (a + 1)) + 1 := by omega
        rw [hn, List.range'_succ, List.countP_cons]
        simp [parseFails, hr] at h3 ⊢
        omega
      · intro hw
        have := h4 fun k hk1 hk2 => hw k (by omega) (by omega)
        exact ⟨this.1, by omega⟩
    | jsonError =>
      have h := ih (a + 1) (s + 1) acc
      simp only [tryBatchAux, hr]
      obtain ⟨h1, h2, h3, h4⟩ := h
      refine ⟨by omega, by omega, ?_, ?_⟩
      · have hn : (tryBatchAux resp n (a + 1) acc (s + 1)).2.2 - a =
            ((tryBatchAux resp n (a + 1) acc (s + 1)).2.2 - (a + 1)) + 1 := by omega
        rw [hn, List.range'_succ, List.countP_cons]
        simp [parseFails, hr] at h3 ⊢
        omega
      · intro hw
        have := h4 fun k hk1 hk2 => hw k (by omega) (by omega)
        exact ⟨this.1, by omega⟩
    | keyError =>
      have h := ih (a + 1) (s + 1) acc
      simp only [tryBatchAux, hr]
      obtain ⟨h1, h2, h3, h4⟩ := h
      refine ⟨by omega, by omega, ?_, ?_⟩
      · have hn : (tryBatchAux resp n (a + 1) acc (s + 1)).2.2 - a =
            ((tryBatchAux resp n (a + 1) acc (s + 1)).2.2 - (a + 1)) + 1 := by omega
        rw [hn, List.range'_succ, List.countP_cons]
        simp [parseFails, hr] at h3 ⊢
        omega
      · intro hw
        have := h4 fun k hk1 hk2 => hw k (by omega) (by omega)
        exact ⟨this.1, by omega⟩
    | ok scores =>
      have hflag := storeScores_flag scores acc
      rcases hss : storeScores scores acc with ⟨acc2, flag⟩
      rw [hss] at hflag
      cases flag with
      | true =>
        have hred : tryBatchAux resp (n + 1) a acc s = (acc2, s, a + 1) := by
          simp [tryBatchAux, hr, hss]
        rw [hred]
        refine ⟨?_, ?_, ?_, ?_⟩
        · show a ≤ a + 1
          omega
        · show a + 1 ≤ a + (n + 1)
          omega
        · show s = s + ((List.range' a (a + 1 - a)).countP fun k => parseFails (resp k))
          have h1 : a + 1 - a = 1 := by omega
          rw [h1]
          have hpf : parseFails (resp a) = false := by
            simp [hr, parseFails, ← hflag]
          simp [List.range'_succ, List.countP_cons, hpf]
        · intro hw
          have := hw a (le_refl a) (by omega)
          rw [hr] at this
          simp [topLevelFail] at this
      | false =>
        have h := ih (a + 1) (s + 1) acc2
        have hred : tryBatchAux resp (n + 1) a acc s = tryBatchAux resp n (a + 1) acc2 (s + 1) := by
          simp [tryBatchAux, hr, hss]
        rw [hred]
        obtain ⟨h1, h2, h3, h4⟩ := h
        refine ⟨by omega, by omega, ?_, ?_⟩
        · have hn : (tryBatchAux resp n (a + 1) acc2 (s + 1)).2.2 - a =
              ((tryBatchAux resp n (a + 1) acc2 (s + 1)).2.2 - (a + 1)) + 1 := by omega
          have hpf : parseFails (resp a) = true := by
            simp [hr, parseFails, ← hflag]
          rw [hn, List.range'_succ, List.countP_cons]
          simp [hpf] at h3 ⊢
          omega
        · intro hw
          have := hw a (le_refl a) (by omega)
          rw [hr] at this
          simp [topLevelFail] at this

/-! ### Zero-initialisation of the prediction store -/

theorem storeScores_zero (scores : List (String × ScoreData))
    (acc : List (String × Prediction)) (h : ∀ e ∈ acc, e.2.p_above_target = 0) :
    ∀ e ∈ (storeScores scores acc).1, e.2.p_above_target = 0 := by
  induction scores generalizing acc with
  | nil => exact h
  | cons p rest ih =>
    obtain ⟨revid, sd⟩ := p
    obtain ⟨pr, pb⟩ := sd
    cases pr with
    | none => exact h
    | some pr' =>
      cases pb with
      | none => exact h
      | some pb' =>
        simp only [storeScores]
        exact ih _ fun e he => (mem_dset he).elim (h e) fun hev => by rw [hev]

theorem tryBatchAux_zero (resp : Nat → OresResponse) :
    ∀ (fuel a s : Nat) (acc : List (String × Prediction)),
      (∀ e ∈ acc, e.2.p_above_target = 0) →
      ∀ e ∈ (tryBatchAux resp fuel a acc s).1, e.2.p_above_target = 0 := by
  intro fuel
  induction fuel with
  | zero =>
    intro a s acc h
    exact h
  | succ n ih =>
    intro a s acc h
    cases hr : resp a with
    | httpError =>
      simp only [tryBatchAux, hr]
      exact ih _ _ _ h
    | jsonError =>
      simp only [tryBatchAux, hr]
      exact ih _ _ _ h
    | keyError =>
      simp only [tryBatchAux, hr]
      exact ih _ _ _ h
    | ok scores =>
      rcases hss : storeScores scores acc with ⟨acc2, flag⟩
      have hz : ∀ e ∈ acc2, e.2.p_above_target = 0 := by
        have hh := storeScores_zero scores acc h
        rw [hss] at hh
        exact hh
      cases flag with
      | true =>
        simp only [tryBatchAux, hr, hss]
        exact hz
      | false =>
        simp only [tryBatchAux, hr, hss]
        exact ih _ _ _ hz

theorem get_predictionsAux_zero (resp : Nat → Nat → OresResponse) :
    ∀ (fuel : Nat) (l : List String) (b : Nat) (acc : List (String × Prediction)) (s : Nat),
      (∀ e ∈ acc, e.2.p_above_target = 0) →
      ∀ e ∈ (get_predictionsAux resp fuel l b acc s).1, e.2.p_above_target = 0 := by
  intro fuel
  induction fuel with
  | zero =>
    intro l b acc s h
    exact h
  | succ n ih =>
    intro l b acc s h
    cases l with
    | nil => exact h
    | cons x xs =>
      rcases htb : tryBatch (resp b) acc with ⟨acc2, s2, at2⟩
      have hz : ∀ e ∈ acc2, e.2.p_above_target = 0 := by
        have hh := tryBatchAux_zero (resp b) max_url_attempts 0 0 acc h
        unfold tryBatch at htb
        rw [htb] at hh
        exact hh
      simp only [get_predictionsAux, htb]
      exact ih _ _ _ _ hz

theorem get_predictions_zero (resp : Nat → Nat → OresResponse) (ids : List String) :
    ∀ e ∈ (get_predictions resp ids).1, e.2.p_above_target = 0 :=
  get_predictionsAux_zero resp ids.length ids 0 [] 0 (by simp)

theorem initialStore_zero (db : DB) (resp : Nat → Nat → OresResponse) (cat : String) :
    ∀ e ∈ initialStore db resp cat, e.2.p_above_target = 0 :=
  get_predictions_zero resp _

/-! ### One-decimal formatting -/

theorem ratFloor_nonneg (q : ℚ) (hq : 0 ≤ q) : 0 ≤ q.floor := by
  rw [show (0 : Int) ≤ q.floor ↔ ((0 : Int) : ℚ) ≤ q from Rat.le_floor]
  exact_mod_cast hq

theorem formatFixed1_shape (q : ℚ) (hq : 0 ≤ q) :
    ∃ m d : Int, 0 ≤ m ∧ 0 ≤ d ∧ d < 10 ∧
      formatFixed1 q = toString m ++ "." ++ toString d := by
  have hn : (0 : Int) ≤ (10 * q + 1 / 2).floor := ratFloor_nonneg _ (by linarith)
  exact ⟨(10 * q + 1 / 2).floor / 10, (10 * q + 1 / 2).floor % 10,
    Int.ediv_nonneg hn (by norm_num), Int.emod_nonneg _ (by norm_num),
    Int.emod_lt_of_pos _ (by norm_num), rfl⟩

theorem string_append_empty (s : String) : s ++ "" = s := by
  cases s with
  | mk data =>
    show String.mk (data ++ []) = String.mk data
    rw [List.append_nil]

/-! ### Ranking-loop lemmas -/

theorem viewOf_dset (store : List (String × Prediction)) (k : String) (pred : Prediction)
    (hd : dget k store = some pred) (q : ℚ) (r : String) :
    viewOf (dset store k { pred with p_above_target := q }) r = viewOf store r := by
  unfold viewOf
  rw [dget_dset]
  by_cases hr : r = k
  · rw [if_pos hr, hr, hd]
    rfl
  · rw [if_neg hr]

theorem rankLoop_view (tidx : Nat) (dist : Int) :
    ∀ (art : List (String × Int)) (cands : List (String × String))
      (store : List (String × Prediction)) (c' : List (String × String))
      (s' : List (String × Prediction)),
      rankLoop tidx dist art cands store = .ok (c', s') →
      ∀ r, viewOf s' r = viewOf store r := by
  intro art
  induction art with
  | nil =>
    intro cands store c' s' hok r
    simp only [rankLoop, Except.ok.injEq, Prod.mk.injEq] at hok
    rw [← hok.2]
  | cons e rest ih =>
    obtain ⟨title, rev⟩ := e
    intro cands store c' s' hok r
    simp only [rankLoop] at hok
    cases hd : dget (toString rev) store with
    | none =>
      simp only [hd] at hok
      exact ih cands store c' s' hok r
    | some pred =>
      simp only [hd] at hok
      cases hri : dget pred.rating wp10_map with
      | none =>
        simp only [hri] at hok
        exact absurd hok (by simp)
      | some ridx =>
        simp only [hri] at hok
        by_cases hif : (tidx : Int) - (ridx : Int) ≥ dist
        · rw [if_pos hif] at hok
          cases hsa : sumAbove pred.probs tidx with
          | none =>
            simp only [hsa] at hok
            exact absurd hok (by simp)
          | some sv =>
            simp only [hsa] at hok
            have hv := ih _ _ _ _ hok r
            rw [hv, viewOf_dset store _ pred hd]
        · rw [if_neg hif] at hok
          exact ih cands store c' s' hok r

theorem rankLoop_untouched (tidx : Nat) (dist : Int) :
    ∀ (art : List (String × Int)) (cands : List (String × String))
      (store : List (String × Prediction)) (c' : List (String × String))
      (s' : List (String × Prediction)),
      rankLoop tidx dist art cands store = .ok (c', s') →
      ∀ r, (∀ e ∈ art, toString e.2 ≠ r) → dget r s' = dget r store := by
  intro art
  induction art with
  | nil =>
    intro cands store c' s' hok r _
    simp only [rankLoop, Except.ok.injEq, Prod.mk.injEq] at hok
    rw [← hok.2]
  | cons e rest ih =>
    obtain ⟨title, rev⟩ := e
    intro cands store c' s' hok r hr
    have hrhead : toString rev ≠ r := hr (title, rev) (List.mem_cons_self _ _)
    have hrrest : ∀ e ∈ rest, toString e.2 ≠ r := fun e he => hr e (List.mem_cons_of_mem _ he)
    simp only [rankLoop] at hok
    cases hd : dget (toString rev) store with
    | none =>
      simp only [hd] at hok
      exact ih cands store c' s' hok r hrrest
    | some pred =>
      simp only [hd] at hok
      cases hri : dget pred.rating wp10_map with
      | none =>
        simp only [hri] at hok
        exact absurd hok (by simp)
      | some ridx =>
        simp only [hri] at hok
        by_cases hif : (tidx : Int) - (ridx : Int) ≥ dist
        · rw [if_pos hif] at hok
          cases hsa : sumAbove pred.probs tidx with
          | none =>
            simp only [hsa] at hok
            exact absurd hok (by simp)
          | some sv =>
            simp only [hsa] at hok
            rw [ih _ _ _ _ hok r hrrest, dget_dset, if_neg (fun h => hrhead h.symm)]
        · rw [if_neg hif] at hok
          exact ih cands store c' s' hok r hrrest

theorem rankLoop_cands_domain (tidx : Nat) (dist : Int) :
    ∀ (art : List (String × Int)) (cands : List (String × String))
      (store : List (String × Prediction)) (c' : List (String × String))
      (s' : List (String × Prediction)),
      rankLoop tidx dist art cands store = .ok (c', s') →
      (∀ e ∈ cands, (dget e.2 store).isSome) →
      ∀ e ∈ c', (dget e.2 s').isSome := by
  intro art
  induction art with
  | nil =>
    intro cands store c' s' hok hc
    simp only [rankLoop, Except.ok.injEq, Prod.mk.injEq] at hok
    rw [← hok.1, ← hok.2]
    exact hc
  | cons e rest ih =>
    obtain ⟨title, rev⟩ := e
    intro cands store c' s' hok hc
    simp only [rankLoop] at hok
    cases hd : dget (toString rev) store with
    | none =>
      simp only [hd] at hok
      exact ih cands store c' s' hok hc
    | some pred =>
      simp only [hd] at hok
      cases hri : dget pred.rating wp10_map with
      | none =>
        simp only [hri] at hok
        exact absurd hok (by simp)
      | some ridx =>
        simp only [hri] at hok
        by_cases hif : (tidx : Int) - (ridx : Int) ≥ dist
        · rw [if_pos hif] at hok
          cases hsa : sumAbove pred.probs tidx with
          | none =>
            simp only [hsa] at hok
            exact absurd hok (by simp)
          | some sv =>
            simp only [hsa] at hok
            refine ih _ _ _ _ hok fun e he => ?_
            rw [dget_dset]
            rcases mem_dset he with he' | rfl
            · by_cases hk : e.2 = toString rev
              · rw [if_pos hk]
                rfl
              · rw [if_neg hk]
                exact hc e he'
            · simp
        · rw [if_neg hif] at hok
          exact ih cands store c' s' hok hc

theorem rankLoop_mem (tidx : Nat) (dist : Int) :
    ∀ (art : List (String × Int)) (cands : List (String × String))
      (store : List (String × Prediction)) (c' : List (String × String))
      (s' : List (String × Prediction)),
      rankLoop tidx dist art cands store = .ok (c', s') →
      ∀ t, (dget t c').isSome ↔
        ((dget t cands).isSome ∨
          ∃ rev, (t, rev) ∈ art ∧ passesView tidx dist (viewOf store (toString rev))) := by
  intro art
  induction art with
  | nil =>
    intro cands store c' s' hok t
    simp only [rankLoop, Except.ok.injEq, Prod.mk.injEq] at hok
    rw [← hok.1]
    simp
  | cons e rest ih =>
    obtain ⟨title, rev⟩ := e
    intro cands store c' s' hok t
    simp only [rankLoop] at hok
    cases hd : dget (toString rev) store with
    | none =>
      simp only [hd] at hok
      rw [ih cands store c' s' hok t]
      constructor
      · rintro (h | ⟨rv, hrv, hp⟩)
        · exact Or.inl h
        · exact Or.inr ⟨rv, List.mem_cons_of_mem _ hrv, hp⟩
      · rintro (h | ⟨rv, hrv, hp⟩)
        · exact Or.inl h
        · rcases List.mem_cons.mp hrv with heq | hm
          · exfalso
            injection heq with h1 h2
            subst h2
            obtain ⟨rt, ridx, hrt, _, _⟩ := hp
            rw [viewOf, hd] at hrt
            simp at hrt
          · exact Or.inr ⟨rv, hm, hp⟩
    | some pred =>
      simp only [hd] at hok
      cases hri : dget pred.rating wp10_map with
      | none =>
        simp only [hri] at hok
        exact absurd hok (by simp)
      | some ridx =>
        simp only [hri] at hok
        by_cases hif : (tidx : Int) - (ridx : Int) ≥ dist
        · rw [if_pos hif] at hok
          cases hsa : sumAbove pred.probs tidx with
          | none =>
            simp only [hsa] at hok
            exact absurd hok (by simp)
          | some sv =>
            simp only [hsa] at hok
            have hpv : passesView tidx dist (viewOf store (toString rev)) := by
              refine ⟨pred.rating, ridx, ?_, hri, hif⟩
              rw [viewOf, hd]
              rfl
            have hih := ih _ _ _ _ hok t
            simp only [viewOf_dset store (toString rev) pred hd] at hih
            rw [hih, dget_dset]
            constructor
            · rintro (hsome | ⟨rv, hrv, hp⟩)
              · by_cases ht : t = title
                · refine Or.inr ⟨rev, ?_, hpv⟩
                  rw [ht]
                  exact List.mem_cons_self _ _
                · rw [if_neg ht] at hsome
                  exact Or.inl hsome
              · exact Or.inr ⟨rv, List.mem_cons_of_mem _ hrv, hp⟩
            · rintro (hsome | ⟨rv, hrv, hp⟩)
              · by_cases ht : t = title
                · left
                  rw [if_pos ht]
                  rfl
                · left
                  rw [if_neg ht]
                  exact hsome
              · rcases List.mem_cons.mp hrv with heq | hm
                · injection heq with h1 h2
                  left
                  rw [if_pos h1]
                  rfl
                · exact Or.inr ⟨rv, hm, hp⟩
        · rw [if_neg hif] at hok
          rw [ih cands store c' s' hok t]
          constructor
          · rintro (h | ⟨rv, hrv, hp⟩)
            · exact Or.inl h
            · exact Or.inr ⟨rv, List.mem_cons_of_mem _ hrv, hp⟩
          · rintro (h | ⟨rv, hrv, hp⟩)
            · exact Or.inl h
            · rcases List.mem_cons.mp hrv with heq | hm
              · exfalso
                injection heq with h1 h2
                subst h2
                obtain ⟨rt, ridx', hrt, hri', hge⟩ := hp
                rw [viewOf, hd] at hrt
                simp only [Option.map_some'] at hrt
                injection hrt with hrt'
                rw [← hrt'] at hri'
                rw [hri] at hri'
                injection hri' with hridx
                omega
              · exact Or.inr ⟨rv, hm, hp⟩

theorem rankLoop_value (tidx : Nat) (dist : Int) :
    ∀ (art : List (String × Int)) (cands : List (String × String))
      (store : List (String × Prediction)) (c' : List (String × String))
      (s' : List (String × Prediction)),
      rankLoop tidx dist art cands store = .ok (c', s') →
      (art.map fun p => toString p.2).Nodup →
      ∀ t rev pred ridx, (t, rev) ∈ art →
        dget (toString rev) store = some pred →
        dget pred.rating wp10_map = some ridx →
        (tidx : Int) - (ridx : Int) ≥ dist →
        ∃ sv, sumAbove pred.probs tidx = some sv ∧
          dget (toString rev) s' =
            some { pred with p_above_target := pred.p_above_target + sv } := by
  intro art
  induction art with
  | nil =>
    intro cands store c' s' _ _ t rev pred ridx hmem
    simp at hmem
  | cons e rest ih =>
    obtain ⟨title, rev0⟩ := e
    intro cands store c' s' hok hnd t rev pred ridx hmem hdg hrg hge
    simp only [List.map_cons, List.nodup_cons] at hnd
    obtain ⟨hh, hndtail⟩ := hnd
    simp only [rankLoop] at hok
    rcases List.mem_cons.mp hmem with heq | hmemr
    · injection heq with h1 h2
      subst h2
      cases hd : dget (toString rev) store with
      | none =>
        rw [hd] at hdg
        cases hdg
      | some pred0 =>
        have hpp : pred0 = pred := by
          rw [hd] at hdg
          injection hdg
        simp only [hd] at hok
        rw [hpp] at hok
        simp only [hrg] at hok
        rw [if_pos hge] at hok
        cases hsa : sumAbove pred.probs tidx with
        | none =>
          simp only [hsa] at hok
          exact absurd hok (by simp)
        | some sv =>
          simp only [hsa] at hok
          refine ⟨sv, rfl, ?_⟩
          have hu := rankLoop_untouched tidx dist rest _ _ _ _ hok (toString rev)
            (fun e he hcon => hh (hcon ▸ List.mem_map.mpr ⟨e, he, rfl⟩))
          rw [hu, dget_dset, if_pos rfl]
    · have hkne : toString rev ≠ toString rev0 := by
        intro hcon
        apply hh
        rw [← hcon]
        exact List.mem_map.mpr ⟨(t, rev), hmemr, rfl⟩
      cases hd : dget (toString rev0) store with
      | none =>
        simp only [hd] at hok
        exact ih _ _ _ _ hok hndtail t rev pred ridx hmemr hdg hrg hge
      | some pred0 =>
        simp only [hd] at hok
        cases hri0 : dget pred0.rating wp10_map with
        | none =>
          simp only [hri0] at hok
          exact absurd hok (by simp)
        | some ridx0 =>
          simp only [hri0] at hok
          by_cases hif0 : (tidx : Int) - (ridx0 : Int) ≥ dist
          · rw [if_pos hif0] at hok
            cases hsa0 : sumAbove pred0.probs tidx with
            | none =>
              simp only [hsa0] at hok
              exact absurd hok (by simp)
            | some sv0 =>
              simp only [hsa0] at hok
              refine ih _ _ _ _ hok hndtail t rev pred ridx hmemr ?_ hrg hge
              rw [dget_dset, if_neg hkne]
              exact hdg
          · rw [if_neg hif0] at hok
            exact ih _ _ _ _ hok hndtail t rev pred ridx hmemr hdg hrg hge

theorem mem_materialize {cands : List (String × String)} {store : List (String × Prediction)}
    {t : String} {p : Prediction} :
    (t, p) ∈ materialize cands store ↔ ∃ r, (t, r) ∈ cands ∧ dget r store = some p := by
  unfold materialize
  rw [List.mem_filterMap]
  constructor
  · rintro ⟨e, he, hf⟩
    cases hdg : dget e.2 store with
    | none =>
      rw [hdg] at hf
      cases hf
    | some pr =>
      rw [hdg] at hf
      simp only [Option.map_some'] at hf
      injection hf with hf'
      injection hf' with h1 h2
      refine ⟨e.2, ?_, ?_⟩
      · rw [← h1, Prod.mk.eta]
        exact he
      · rw [← h2]
        exact hdg
  · rintro ⟨r, hr, hdg⟩
    refine ⟨(t, r), hr, ?_⟩
    rw [hdg]
    rfl

theorem keysND_buildArtMap (titles : List String) : keysND (buildArtMap titles) := by
  unfold buildArtMap
  have h : ∀ m : List (String × Int), keysND m →
      keysND (titles.foldl (fun m t => dset m t (-1)) m) := by
    induction titles with
    | nil => intro m h; exact h
    | cons t ts ih => intro m h; exact ih _ (keysND_dset h t _)
  exact h [] (by simp [keysND])

theorem keysND_artRevMap (db : DB) (cat : String) : keysND (artRevMap db cat) := by
  unfold artRevMap keysND
  rw [List.map_map]
  have h : (Prod.fst ∘ fun p : String × Int => (p.1, lastOr (db.latest p.1) (-1))) = Prod.fst :=
    rfl
  rw [h]
  exact keysND_buildArtMap _

theorem keysND_resolvedArtMap (db : DB) (cat : String) : keysND (resolvedArtMap db cat) := by
  unfold resolvedArtMap keysND
  have hsub : List.Sublist (((artRevMap db cat).filter fun p => decide (0 < p.2)).map Prod.fst)
      ((artRevMap db cat).map Prod.fst) := (List.filter_sublist _).map _
  exact List.Nodup.sublist hsub (keysND_artRevMap db cat)

theorem predict_ok_elim {db : DB} {resp : Nat → Nat → OresResponse} {cat target : String}
    {dist : Int} {cands store' : List (String × Prediction)}
    (hok : predict db resp cat target dist = .ok cands store') {tidx : Nat}
    (htarget : dget target wp10_map = some tidx) :
    ∃ candRevs, rankLoop tidx dist (resolvedArtMap db cat) [] (initialStore db resp cat) =
        .ok (candRevs, store') ∧ cands = materialize candRevs store' := by
  unfold predict at hok
  by_cases hc : db.connects = true
  · simp only [hc, if_true, htarget] at hok
    cases hrl : rankLoop tidx dist (resolvedArtMap db cat) [] (initialStore db resp cat) with
    | error e =>
      rw [hrl] at hok
      exact absurd hok (by simp)
    | ok pr =>
      obtain ⟨candRevs, st⟩ := pr
      rw [hrl] at hok
      simp only [PredictResult.ok.injEq] at hok
      obtain ⟨hmat, hst⟩ := hok
      subst hst
      exact ⟨candRevs, rfl, hmat.symm⟩
  · rw [if_neg hc] at hok
    exact absurd hok (by simp)

theorem rankLoop_origin (tidx : Nat) (dist : Int) :
    ∀ (art : List (String × Int)) (cands : List (String × String))
      (store : List (String × Prediction)) (c' : List (String × String))
      (s' : List (String × Prediction)),
      rankLoop tidx dist art cands store = .ok (c', s') →
      ∀ e ∈ c', e ∈ cands ∨ ∃ rev, (e.1, rev) ∈ art ∧ e.2 = toString rev := by
  intro art
  induction art with
  | nil =>
    intro cands store c' s' hok e he
    simp only [rankLoop, Except.ok.injEq, Prod.mk.injEq] at hok
    rw [← hok.1] at he
    exact Or.inl he
  | cons a rest ih =>
    obtain ⟨title, rev⟩ := a
    intro cands store c' s' hok e he
    simp only [rankLoop] at hok
    cases hd : dget (toString rev) store with
    | none =>
      simp only [hd] at hok
      rcases ih _ _ _ _ hok e he with h | ⟨rv, hrv, hrs⟩
      · exact Or.inl h
      · exact Or.inr ⟨rv, List.mem_cons_of_mem _ hrv, hrs⟩
    | some pred =>
      simp only [hd] at hok
      cases hri : dget pred.rating wp10_map with
      | none =>
        simp only [hri] at hok
        exact absurd hok (by simp)
      | some ridx =>
        simp only [hri] at hok
        by_cases hif : (tidx : Int) - (ridx : Int) ≥ dist
        · rw [if_pos hif] at hok
          cases hsa : sumAbove pred.probs tidx with
          | none =>
            simp only [hsa] at hok
            exact absurd hok (by simp)
          | some sv =>
            simp only [hsa] at hok
            rcases ih _ _ _ _ hok e he with h | ⟨rv, hrv, hrs⟩
            · rcases mem_dset h with h' | rfl
              · exact Or.inl h'
              · exact Or.inr ⟨rev, List.mem_cons_self _ _, rfl⟩
            · exact Or.inr ⟨rv, List.mem_cons_of_mem _ hrv, hrs⟩
        · rw [if_neg hif] at hok
          rcases ih _ _ _ _ hok e he with h | ⟨rv, hrv, hrs⟩
          · exact Or.inl h
          · exact Or.inr ⟨rv, List.mem_cons_of_mem _ hrv, hrs⟩

theorem rankLoop_fail_preserved (tidx : Nat) (dist : Int) :
    ∀ (art : List (String × Int)) (cands : List (String × String))
      (store : List (String × Prediction)) (c' : List (String × String))
      (s' : List (String × Prediction)),
      rankLoop tidx dist art cands store = .ok (c', s') →
      ∀ r pred ridx, dget r store = some pred →
        dget pred.rating wp10_map = some ridx →
        ¬((tidx : Int) - (ridx : Int) ≥ dist) →
        dget r s' = some pred := by
  intro art
  induction art with
  | nil =>
    intro cands store c' s' hok r pred ridx hdg _ _
    simp only [rankLoop, Except.ok.injEq, Prod.mk.injEq] at hok
    rw [← hok.2]
    exact hdg
  | cons a rest ih =>
    obtain ⟨title, rev0⟩ := a
    intro cands store c' s' hok r pred ridx hdg hrg hlt
    simp only [rankLoop] at hok
    cases hd : dget (toString rev0) store with
    | none =>
      simp only [hd] at hok
      exact ih _ _ _ _ hok r pred ridx hdg hrg hlt
    | some pred0 =>
      simp only [hd] at hok
      cases hri0 : dget pred0.rating wp10_map with
      | none =>
        simp only [hri0] at hok
        exact absurd hok (by simp)
      | some ridx0 =>
        simp only [hri0] at hok
        by_cases hif0 : (tidx : Int) - (ridx0 : Int) ≥ dist
        · rw [if_pos hif0] at hok
          cases hsa0 : sumAbove pred0.probs tidx with
          | none =>
            simp only [hsa0] at hok
            exact absurd hok (by simp)
          | some sv0 =>
            simp only [hsa0] at hok
            have hkne : toString rev0 ≠ r := by
              intro hcon
              rw [hcon, hdg] at hd
              injection hd with hd'
              rw [hd'] at hrg
              rw [hri0] at hrg
              injection hrg with hre
              omega
            refine ih _ _ _ _ hok r pred ridx ?_ hrg hlt
            rw [dget_dset, if_neg (fun h => hkne h.symm)]
            exact hdg
        · rw [if_neg hif0] at hok
          exact ih _ _ _ _ hok r pred ridx hdg hrg hlt

theorem predict_ok_target {db : DB} {resp : Nat → Nat → OresResponse} {cat target : String}
    {dist : Int} {cands store' : List (String × Prediction)}
    (hok : predict db resp cat target dist = .ok cands store') :
    ∃ tidx, dget target wp10_map = some tidx := by
  unfold predict at hok
  by_cases hc : db.connects = true
  · simp only [hc, if_true] at hok
    cases ht : dget target wp10_map with
    | none =>
      simp only [ht] at hok
      exact absurd hok (by simp)
    | some tidx => exact ⟨tidx, rfl⟩
  · rw [if_neg hc] at hok
    exact absurd hok (by simp)

/-! ### Claim theorems -/

/-- C2 counterexample: in the end-to-end scenario (members A, B, C;
A → 101 predicted Stub with the given probabilities, B → 102 predicted FA,
C unresolved; target C, minDistance 2) the candidate set is {B}, not {A}:
the code's filter is `indexOf(target) - indexOf(predicted) >= minDistance`
(line 277), so A's Stub prediction gives 3 - 5 = -2 (excluded) while B's
FA prediction gives 3 - 0 = 3 (included). -/
theorem C2_counterexample_candidate_is_B :
    candidateTitles (predict scnDB scnResp "Cat" "C" 2) = some ["B"] := by
  with_unfolding_all rfl

/-- C2 (amended): in the end-to-end scenario with target C and minDistance
2 under the code's convention `indexOf(target) - indexOf(predicted) >=
minDistance`, the candidate set is {B} (3 - 0 = 3 ≥ 2; A is excluded with
3 - 5 = -2, C has no revision); B's probabilityAboveTarget is the sum of
its FA, GA and B probabilities, 0.9 + 0.05 + 0.03 = 0.98, and the report
has exactly one row: title B, rating FA, probability rendered 98.0. -/
theorem C2_amended_scenario :
    predict scnDB scnResp "Cat" "C" 2 =
      .ok [("B", scnPredB)] [("101", scnPredA), ("102", scnPredB)] ∧
    scnPredB.p_above_target = 9 / 10 + 1 / 20 + 3 / 100 ∧
    build_table [("B", scnPredB)] "C" =
      "\x7b|\n!  Title\n!  Predicted class\n!  P(> C)\n|-\n| [[B]] || FA || 98.0\n|\x7d" :=
  ⟨by with_unfolding_all rfl, by with_unfolding_all rfl, by with_unfolding_all rfl⟩

/-- C4: the candidate sequence rendered by the report (`build_table` folds
over `sortDesc candidates`) is sorted in non-increasing order of
`p_above_target`, and the sort is stable: for every key value, the
candidates carrying it appear in their original iteration order. -/
theorem C4_sort_descending_stable (candidates : List (String × Prediction)) :
    ((sortDesc candidates).Pairwise fun a b => keyOf b ≤ keyOf a) ∧
    ∀ q : ℚ, (sortDesc candidates).filter (fun c => decide (keyOf c = q)) =
      candidates.filter (fun c => decide (keyOf c = q)) :=
  ⟨sortDesc_pairwise candidates, fun q => sortDesc_filter candidates q⟩

/-- C5: when the membership store is unreachable, `predict` returns the
distinguished failure value (the spec's ResolutionError tier), the run
aborts and `main` emits no report; an empty category is not an error and
yields the empty candidate map. -/
theorem C5_resolution_failure_vs_empty_category (db : DB) (resp : Nat → Nat → OresResponse)
    (cat target : String) (dist : Int) :
    (db.connects = false →
      predict db resp cat target dist = .dbFailure ∧
      run_main db resp cat target dist = none) ∧
    (db.connects = true → db.members (replaceChar ' ' '_' cat) = [] →
      ∀ tidx, dget target wp10_map = some tidx →
      predict db resp cat target dist = .ok [] []) := by
  constructor
  · intro hc
    have hp : predict db resp cat target dist = .dbFailure := by
      unfold predict
      rw [if_neg (by simp [hc])]
    refine ⟨hp, ?_⟩
    unfold run_main
    rw [hp]
  · intro hc hm tidx ht
    have hart : resolvedArtMap db cat = [] := by
      unfold resolvedArtMap artRevMap buildArtMap
      rw [hm]
      rfl
    have hstore : initialStore db resp cat = [] := by
      unfold initialStore
      rw [hart]
      rfl
    unfold predict
    rw [if_pos hc]
    simp [hart, hstore, ht, rankLoop, materialize]

/-- C5 witness: a failing connection aborts with no report; a reachable
store with an empty category returns the empty candidate map. -/
theorem C5_resolution_failure_vs_empty_category_witness :
    predict badDB scnResp "Cat" "C" 2 = .dbFailure ∧
    run_main badDB scnResp "Cat" "C" 2 = none ∧
    predict emptyDB scnResp "Cat" "C" 2 = .ok [] [] :=
  ⟨((C5_resolution_failure_vs_empty_category badDB scnResp "Cat" "C" 2).1 rfl).1,
   ((C5_resolution_failure_vs_empty_category badDB scnResp "Cat" "C" 2).1 rfl).2,
   (C5_resolution_failure_vs_empty_category emptyDB scnResp "Cat" "C" 2).2 rfl rfl 3
     (by decide)⟩

/-- C6 counterexample: a batch whose three attempts all fail with a
non-success transport status is retried immediately with zero sleeps
(`time.sleep(0.5)` at line 169 sits inside the `status_code == 200`
branch), refuting the claimed wait before every retry. -/
theorem C6_counterexample_no_sleep_on_bad_status :
    tryBatch (fun _ => OresResponse.httpError) [] = ([], 0, 3) := by decide

/-- C6 (amended): each batch is attempted at most 3 times, treating a
non-success status, an unparseable body, or absent expected keys as a
failed attempt; the 0.5 s sleep happens exactly after the attempts whose
200-response failed to parse — a non-success status retries immediately
with no sleep; if every attempt fails before storing anything (non-success
status, bad JSON, or missing top-level keys), the batch contributes no
entries and all 3 attempts are consumed; the loop always returns, so no
exception propagates (entries stored before a mid-parse key failure do
remain). -/
theorem C6_retry_behavior (resp : Nat → OresResponse) (acc : List (String × Prediction)) :
    (tryBatch resp acc).2.2 ≤ max_url_attempts ∧
    (tryBatch resp acc).2.1 =
      (List.range (tryBatch resp acc).2.2).countP (fun k => parseFails (resp k)) ∧
    ((∀ k, k < max_url_attempts → topLevelFail (resp k) = true) →
      (tryBatch resp acc).1 = acc ∧ (tryBatch resp acc).2.2 = max_url_attempts) := by
  unfold tryBatch
  obtain ⟨h1, h2, h3, h4⟩ := tryBatchAux_spec resp max_url_attempts 0 0 acc
  refine ⟨by simpa using h2, ?_, fun hw => ?_⟩
  · rw [List.range_eq_range']
    simpa using h3
  · have h := h4 fun k hk1 hk2 => hw k (by omega)
    simpa using h

/-- C6 witness: with every attempt failing to parse, the loop consumes all
three attempts and the batch contributes nothing. -/
theorem C6_retry_behavior_witness :
    (tryBatch (fun _ => OresResponse.jsonError) []).1 = [] ∧
    (tryBatch (fun _ => OresResponse.jsonError) []).2.2 = max_url_attempts :=
  (C6_retry_behavior (fun _ => OresResponse.jsonError) []).2.2 fun _ _ => rfl

/-- C7 (code bug): quality-class lookup is case-sensitive, contradicting
the source's own comment "Note that we use case-insensitive scoring"
(line 69): the exact-case name "Stub" resolves to index 5, but the
lowercase "stub" is absent from `wp10_map`, so `wp10_map[target]` raises
an uncaught `KeyError` and `predict` dies instead of matching the class
case-insensitively. -/
theorem C7_case_sensitive_class_lookup :
    dget "Stub" wp10_map = some 5 ∧ dget "stub" wp10_map = none ∧
    predict scnDB scnResp "Cat" "stub" 2 = .pyError .targetKeyError :=
  ⟨by decide, by decide, by with_unfolding_all rfl⟩

/-- C9: the report formatter renders each probability as a percentage with
one decimal place (an integer part, a dot, and a single digit), replaces
underscores in titles with spaces, and renders the empty candidate
sequence as header plus footer with no rows; it is a total function with
no error paths. -/
theorem C9_report_formatting :
    (∀ target, build_table [] target = tableStart target ++ tableEnd) ∧
    build_table [("Foo_Bar", (⟨"101", "Stub", probs101, 2 / 25⟩ : Prediction))] "C" =
      "\x7b|\n!  Title\n!  Predicted class\n!  P(> C)\n|-\n| [[Foo Bar]] || Stub || 8.0\n|\x7d" ∧
    ∀ q : ℚ, 0 ≤ q → ∃ m d : Int, 0 ≤ m ∧ 0 ≤ d ∧ d < 10 ∧
      formatFixed1 (100 * q) = toString m ++ "." ++ toString d := by
  refine ⟨?_, by with_unfolding_all rfl, ?_⟩
  · intro target
    have h : ((sortDesc []).foldl (fun c p => tableRow c p.1 p.2) "") = "" := rfl
    unfold build_table
    rw [h, string_append_empty]
  · intro q hq
    exact formatFixed1_shape (100 * q) (by positivity)

/-- C9 witness: the probability 0.08 of the sample row renders as an
integer part, a dot, and one digit. -/
theorem C9_report_formatting_witness :
    ∃ m d : Int, 0 ≤ m ∧ 0 ≤ d ∧ d < 10 ∧
      formatFixed1 (100 * (2 / 25)) = toString m ++ "." ++ toString d :=
  C9_report_formatting.2.2 (2 / 25) (by norm_num)

/-- C1: for every (title, revisionId) pair whose revision has a known
prediction (and whose rating is on the scale), the pair is in the
candidate output iff `indexOf(target) - indexOf(predicted rating) ≥
minDistance`; in particular a difference equal to `minDistance` is
included and a difference of `minDistance - 1` (being `< minDistance`)
is excluded. -/
theorem C1_candidate_iff_distance (db : DB) (resp : Nat → Nat → OresResponse)
    (cat target : String) (dist : Int) (cands store' : List (String × Prediction))
    (tidx : Nat) (t : String) (rev : Int) (pred : Prediction) (ridx : Nat)
    (hok : predict db resp cat target dist = .ok cands store')
    (htarget : dget target wp10_map = some tidx)
    (hart : (t, rev) ∈ resolvedArtMap db cat)
    (hpred : dget (toString rev) (initialStore db resp cat) = some pred)
    (hrating : dget pred.rating wp10_map = some ridx) :
    (∃ p, (t, p) ∈ cands) ↔ (tidx : Int) - (ridx : Int) ≥ dist := by
  obtain ⟨candRevs, hrl, hmat⟩ := predict_ok_elim hok htarget
  subst hmat
  have hmem := rankLoop_mem tidx dist _ _ _ _ _ hrl t
  constructor
  · rintro ⟨p, hp⟩
    obtain ⟨r, hr, _⟩ := mem_materialize.mp hp
    have hts : (dget t candRevs).isSome := (dget_isSome_iff _ _).mpr ⟨r, hr⟩
    rcases hmem.mp hts with hfalse | ⟨rev', hrev', hpv⟩
    · simp [dget] at hfalse
    · have hrveq : rev' = rev := keysND_eq (keysND_resolvedArtMap db cat) hrev' hart
      subst hrveq
      obtain ⟨rt, ridx', hrt, hri', hge⟩ := hpv
      simp only [viewOf, hpred, Option.map_some'] at hrt
      injection hrt with hrt'
      rw [← hrt'] at hri'
      rw [hrating] at hri'
      injection hri' with hre
      omega
  · intro hge
    have hpv : passesView tidx dist (viewOf (initialStore db resp cat) (toString rev)) := by
      refine ⟨pred.rating, ridx, ?_, hrating, hge⟩
      rw [viewOf, hpred]
      rfl
    have hts : (dget t candRevs).isSome := hmem.mpr (Or.inr ⟨rev, hart, hpv⟩)
    obtain ⟨r, hr⟩ := (dget_isSome_iff _ _).mp hts
    have hdom := rankLoop_cands_domain tidx dist _ _ _ _ _ hrl
      (by intro e he; simp at he) (t, r) hr
    obtain ⟨p, hp⟩ := Option.isSome_iff_exists.mp hdom
    exact ⟨p, mem_materialize.mpr ⟨r, hr, hp⟩⟩

/-- C1 witness: in the end-to-end scenario, B's FA prediction with
`3 - 0 = 3 ≥ 2` places B among the candidates. -/
theorem C1_candidate_iff_distance_witness :
    ∃ p, ("B", p) ∈ [("B", scnPredB)] :=
  (C1_candidate_iff_distance scnDB scnResp "Cat" "C" 2 [("B", scnPredB)]
      [("101", scnPredA), ("102", scnPredB)] 3 "B" 102 scnPredB0 0
      (by with_unfolding_all rfl) (by decide) (by decide)
      (by with_unfolding_all rfl) (by decide)).mpr (by decide)

/-- C3: every candidate's `p_above_target` equals the sum of its class
probabilities over the indices 0 .. indexOf(target) - 1 (an empty sum 0.0
when target is FA, all five better classes when target is Stub): the
field is 0.0 at construction and the ranking loop adds the sum exactly
once, given that the resolved revision ids are pairwise distinct (the
invariant `page_latest` provides). -/
theorem C3_probability_above_target (db : DB) (resp : Nat → Nat → OresResponse)
    (cat target : String) (dist : Int) (cands store' : List (String × Prediction))
    (tidx : Nat)
    (hok : predict db resp cat target dist = .ok cands store')
    (htarget : dget target wp10_map = some tidx)
    (hnodup : ((resolvedArtMap db cat).map fun p => toString p.2).Nodup)
    (t : String) (pred : Prediction) (hmem : (t, pred) ∈ cands) :
    sumAbove pred.probs tidx = some pred.p_above_target := by
  obtain ⟨candRevs, hrl, hmat⟩ := predict_ok_elim hok htarget
  subst hmat
  obtain ⟨r, hr, hdg⟩ := mem_materialize.mp hmem
  rcases rankLoop_origin tidx dist _ _ _ _ _ hrl (t, r) hr with hfalse | ⟨rev, hrev, hrs⟩
  · simp at hfalse
  · subst hrs
    have hts : (dget t candRevs).isSome := (dget_isSome_iff _ _).mpr ⟨_, hr⟩
    rcases (rankLoop_mem tidx dist _ _ _ _ _ hrl t).mp hts with hfalse | ⟨rev', hrev', hpv⟩
    · simp [dget] at hfalse
    · have hrveq : rev' = rev := keysND_eq (keysND_resolvedArtMap db cat) hrev' hrev
      rw [hrveq] at hpv
      obtain ⟨rt, ridx, hrt, hri, hge⟩ := hpv
      cases hdg0 : dget (toString rev) (initialStore db resp cat) with
      | none => simp [viewOf, hdg0] at hrt
      | some pred0 =>
        have hrt' : pred0.rating = rt := by
          simp only [viewOf, hdg0, Option.map_some'] at hrt
          injection hrt
        rw [← hrt'] at hri
        obtain ⟨sv, hsa, hfin⟩ :=
          rankLoop_value tidx dist _ _ _ _ _ hrl hnodup t rev pred0 ridx hrev hdg0 hri hge
        rw [hfin] at hdg
        injection hdg with hdg'
        have hz : pred0.p_above_target = 0 :=
          initialStore_zero db resp cat _ (mem_of_dget_eq_some hdg0)
        rw [← hdg']
        show sumAbove pred0.probs tidx = some (pred0.p_above_target + sv)
        rw [hsa, hz, zero_add]

/-- C3 witness: B's ranked prediction carries exactly the FA + GA + B
probability mass. -/
theorem C3_probability_above_target_witness :
    sumAbove scnPredB.probs 3 = some scnPredB.p_above_target :=
  C3_probability_above_target scnDB scnResp "Cat" "C" 2 [("B", scnPredB)]
    [("101", scnPredA), ("102", scnPredB)] 3 (by with_unfolding_all rfl) (by decide)
    (by decide) "B" scnPredB (List.mem_singleton.mpr rfl)

/-- C8: a title whose latest revision could not be resolved is dropped
before prediction lookup and never appears among the candidates; a title
whose revision is absent from the prediction mapping is skipped by the
candidate loop — literally a no-op recursion, so no error — and never
appears among the candidates. -/
theorem C8_silent_exclusion (db : DB) (resp : Nat → Nat → OresResponse)
    (cat target : String) (dist : Int) (cands store' : List (String × Prediction))
    (hok : predict db resp cat target dist = .ok cands store') (t : String) :
    ((∃ rev, (t, rev) ∈ artRevMap db cat ∧ rev ≤ 0) → ∀ p, (t, p) ∉ cands) ∧
    (∀ rev, (t, rev) ∈ resolvedArtMap db cat →
      dget (toString rev) (initialStore db resp cat) = none → ∀ p, (t, p) ∉ cands) ∧
    (∀ (tidx0 : Nat) (dist0 : Int) (t0 : String) (rev0 : Int)
        (rest : List (String × Int)) (cands0 : List (String × String))
        (store0 : List (String × Prediction)),
      dget (toString rev0) store0 = none →
      rankLoop tidx0 dist0 ((t0, rev0) :: rest) cands0 store0 =
        rankLoop tidx0 dist0 rest cands0 store0) := by
  obtain ⟨tidx, htarget⟩ := predict_ok_target hok
  obtain ⟨candRevs, hrl, hmat⟩ := predict_ok_elim hok htarget
  subst hmat
  refine ⟨?_, ?_, ?_⟩
  · rintro ⟨rev, hmem, hle⟩ p hp
    obtain ⟨r, hr, _⟩ := mem_materialize.mp hp
    rcases rankLoop_origin tidx dist _ _ _ _ _ hrl (t, r) hr with hfalse | ⟨rev', hrev', _⟩
    · simp at hfalse
    · unfold resolvedArtMap at hrev'
      have hf := List.mem_filter.mp hrev'
      have hpos : 0 < rev' := by simpa using hf.2
      have heq : rev' = rev := keysND_eq (keysND_artRevMap db cat) hf.1 hmem
      omega
  · rintro rev hmem hnone p hp
    obtain ⟨r, hr, _⟩ := mem_materialize.mp hp
    have hts : (dget t candRevs).isSome := (dget_isSome_iff _ _).mpr ⟨r, hr⟩
    rcases (rankLoop_mem tidx dist _ _ _ _ _ hrl t).mp hts with hfalse | ⟨rev', hrev', hpv⟩
    · simp [dget] at hfalse
    · have heq : rev' = rev := keysND_eq (keysND_resolvedArtMap db cat) hrev' hmem
      subst heq
      obtain ⟨rt, ridx, hrt, _, _⟩ := hpv
      simp [viewOf, hnone] at hrt
  · intro tidx0 dist0 t0 rev0 rest cands0 store0 hnone
    simp only [rankLoop, hnone]

/-- C8 witness: in the end-to-end scenario, C (whose latest revision is
unresolvable) is not a candidate. -/
theorem C8_silent_exclusion_witness :
    ("C", scnPredA) ∉ [("B", scnPredB)] :=
  (C8_silent_exclusion scnDB scnResp "Cat" "C" 2 [("B", scnPredB)]
    [("101", scnPredA), ("102", scnPredB)] (by with_unfolding_all rfl) "C").1
    ⟨-1, by decide, by decide⟩ scnPredA

/-- C10: a prediction that fails the distance filter yields no candidate
entry for its title and its stored value is left untouched — its
`p_above_target` stays at the constructed 0.0 — and the loop never
modifies the rating or per-class probabilities of any stored
prediction. -/
theorem C10_non_candidates_unchanged (db : DB) (resp : Nat → Nat → OresResponse)
    (cat target : String) (dist : Int) (cands store' : List (String × Prediction))
    (tidx : Nat)
    (hok : predict db resp cat target dist = .ok cands store')
    (htarget : dget target wp10_map = some tidx) :
    (∀ t rev pred ridx,
      (t, rev) ∈ resolvedArtMap db cat →
      dget (toString rev) (initialStore db resp cat) = some pred →
      dget pred.rating wp10_map = some ridx →
      (tidx : Int) - (ridx : Int) < dist →
      (∀ p, (t, p) ∉ cands) ∧
        dget (toString rev) store' = some pred ∧ pred.p_above_target = 0) ∧
    (∀ r p', dget r store' = some p' →
      ∃ p, dget r (initialStore db resp cat) = some p ∧
        p'.rating = p.rating ∧ p'.probs = p.probs) := by
  obtain ⟨candRevs, hrl, hmat⟩ := predict_ok_elim hok htarget
  subst hmat
  constructor
  · intro t rev pred ridx hmem hdg hrg hlt
    refine ⟨?_, ?_, ?_⟩
    · intro p hp
      obtain ⟨r, hr, _⟩ := mem_materialize.mp hp
      have hts : (dget t candRevs).isSome := (dget_isSome_iff _ _).mpr ⟨r, hr⟩
      rcases (rankLoop_mem tidx dist _ _ _ _ _ hrl t).mp hts with hfalse | ⟨rev', hrev', hpv⟩
      · simp [dget] at hfalse
      · have heq : rev' = rev := keysND_eq (keysND_resolvedArtMap db cat) hrev' hmem
        subst heq
        obtain ⟨rt, ridx', hrt, hri', hge⟩ := hpv
        simp only [viewOf, hdg, Option.map_some'] at hrt
        injection hrt with hrt'
        rw [← hrt'] at hri'
        rw [hrg] at hri'
        injection hri' with hre
        omega
    · exact rankLoop_fail_preserved tidx dist _ _ _ _ _ hrl (toString rev) pred ridx
        hdg hrg (by omega)
    · exact initialStore_zero db resp cat _ (mem_of_dget_eq_some hdg)
  · intro r p' hdg
    have hv := rankLoop_view tidx dist _ _ _ _ _ hrl r
    simp only [viewOf, hdg, Option.map_some'] at hv
    cases hdg0 : dget r (initialStore db resp cat) with
    | none =>
      rw [hdg0] at hv
      simp at hv
    | some p =>
      rw [hdg0] at hv
      simp only [Option.map_some'] at hv
      injection hv with hv'
      injection hv' with h1 h2
      exact ⟨p, rfl, h1, h2⟩

/-- C10 witness: in the end-to-end scenario, A's Stub prediction fails the
filter (3 - 5 = -2 < 2): A is not a candidate and the stored prediction
for revision 101 still has `p_above_target = 0`. -/
theorem C10_non_candidates_unchanged_witness :
    (∀ p, ("A", p) ∉ [("B", scnPredB)]) ∧
    dget (toString (101 : Int)) [("101", scnPredA), ("102", scnPredB)] = some scnPredA ∧
    scnPredA.p_above_target = 0 :=
  (C10_non_candidates_unchanged scnDB scnResp "Cat" "C" 2 [("B", scnPredB)]
      [("101", scnPredA), ("102", scnPredB)] 3 (by with_unfolding_all rfl) (by decide)).1
    "A" 101 scnPredA 5 (by decide) (by with_unfolding_all rfl) (by decide) (by decide)

end AssessCategory
